import Mathlib

/-
Shallow embedding of the hash map implementations of this repository.

The repository holds three near-duplicate implementations of one design:
an element store (a growable array of key-value pairs) indexed by a bucket
table that holds positions into the store.

  * namespace HT models src/hashtable.h   (class HashMap, kMinLoad = 3)
  * namespace MC models src/HashMap.cpp   (class HashMap, rehash to 2n+1)
  * namespace HM models src/hash_map.h    (class HashMap, sz/els counters)

Machine integers (size_t) are modelled as Nat: all sizes and positions in
the programs stay far below 2^64, and the single spot where a size_t
subtraction could wrap (els - 1 in hash_map.h erase) is only reached when
the element count is positive, which every theorem below hypothesises.
C++ undefined behaviour (dereferencing a failed std::find, running an
unguarded iterator scan past the end of a bucket, reading back() of an
empty vector) is modelled by returning none from the operation.
-/

namespace HashMapSpec

/-- Identity hash on Nat; this is what libstdc++ std::hash does on
integral keys, and it is the hash used for all concrete evaluations. -/
def natHash : Nat → Nat := fun n => n

section SharedDefs

variable {K V : Type} [DecidableEq K]

/-- Scan of one bucket (a list of positions) against the element store:
return the first position whose stored key equals the requested key.
This is the lookup loop that all three variants share verbatim
(FindByTableBucket in hashtable.h, find in HashMap.cpp and hash_map.h).
An out-of-range position compares as a non-match; the C++ would read out
of range there, which the invariants below exclude. -/
def scanBucket (data : List (K × V)) (bucket : List Nat) (key : K) : Option Nat :=
  bucket.find? fun i => (data[i]?).any fun kv => decide (kv.1 = key)

/-- hash_table[j].push_back(p): append position p to bucket j. -/
def pushBucket (t : List (List Nat)) (j p : Nat) : List (List Nat) :=
  t.set j (t.getD j [] ++ [p])

/-- A fresh table of m empty buckets filled from the element store:
for ind in [0, data.size()): table[hash(data[ind].first) % m].push_back(ind).
This is the rebuild loop of RehashIfNecessary in hashtable.h and of
rehash in HashMap.cpp; the loop positions ind are paired with the stored
pair data[ind] via enum. -/
def newTable (hasher : K → Nat) (m : Nat) (data : List (K × V)) : List (List Nat) :=
  data.enum.foldl
    (fun t pkv => pushBucket t (hasher pkv.2.1 % m) pkv.1)
    (List.replicate m [])

/-- Index correctness of a bucket table over an element store: every
bucket entry is a live position sitting in the bucket given by the hash
of its key, every live position occurs in its hash bucket, and no bucket
repeats a position.  This is the invariant the spec states for the
Bucket Index. -/
abbrev TableInv (hasher : K → Nat) (table : List (List Nat)) (data : List (K × V)) : Prop :=
  (∀ j, j < table.length → ∀ p ∈ table.getD j [],
      (data.map fun kv => hasher kv.1 % table.length)[p]? = some j)
  ∧ (∀ p, ∀ hp : p < data.length,
      p ∈ table.getD (hasher (data.get ⟨p, hp⟩).1 % table.length) [])
  ∧ (∀ j, j < table.length → (table.getD j []).Nodup)

/-- Key uniqueness of the element store (set semantics on keys). -/
abbrev KeysNodup (data : List (K × V)) : Prop := (data.map Prod.fst).Nodup

end SharedDefs

namespace HT

/-- State of the src/hashtable.h variant: the members hash_table_ and
data_ of class HashMap (the hasher is passed to each operation). -/
structure State (K V : Type) where
  hashTable : List (List Nat)
  data : List (K × V)
deriving DecidableEq

/-- constexpr static size_t kMinLoad = 3. -/
def kMinLoad : Nat := 3

/-- constexpr static size_t kMinLoadFactor = 3. -/
def kMinLoadFactor : Nat := 3

/-- constexpr static size_t kMaxLoadFactor = 2. -/
def kMaxLoadFactor : Nat := 2

variable {K V : Type} [DecidableEq K]

/-- GetTableBucket: hasher_(key) % hash_table_.size(). -/
def getTableBucket (hasher : K → Nat) (s : State K V) (key : K) : Nat :=
  hasher key % s.hashTable.length

/-- FindByTableBucket: scan bucket b of hash_table_ against data_. -/
def findByTableBucket (s : State K V) (b : Nat) (key : K) : Option Nat :=
  scanBucket s.data (s.hashTable.getD b []) key

/-- find: FindByTableBucket(GetTableBucket(key), key).  some p is an
iterator at store position p; none is end(). -/
def find (hasher : K → Nat) (s : State K V) (key : K) : Option Nat :=
  findByTableBucket s (getTableBucket hasher s key) key

/-- RehashIfNecessary, including its initialization branch.  Note the
early return when the current bucket count already equals the target:
in that case nothing at all is rebuilt. -/
def rehashIfNecessary (hasher : K → Nat) (s : State K V) : State K V :=
  if s.hashTable.length = 0 ∧ s.data.length = 0 then
    ⟨List.replicate kMinLoad [], s.data⟩
  else if s.hashTable.length * kMaxLoadFactor < s.data.length ∨
          s.data.length * kMinLoadFactor < s.hashTable.length then
    if s.hashTable.length = max s.data.length kMinLoad then s
    else ⟨newTable hasher (max s.data.length kMinLoad) s.data, s.data⟩
  else s

/-- The default constructor: it only runs RehashIfNecessary. -/
def mk (hasher : K → Nat) : State K V := rehashIfNecessary hasher ⟨[], []⟩

/-- The range and initializer-list constructors: push every pair of the
range into data_ unfiltered, then run RehashIfNecessary once. -/
def ofList (hasher : K → Nat) (l : List (K × V)) : State K V :=
  rehashIfNecessary hasher ⟨[], l⟩

/-- insert: look the key up in its bucket; on a hit return unchanged,
otherwise push the new position into the bucket, append the pair to
data_, and run the rehash check. -/
def insert (hasher : K → Nat) (s : State K V) (x : K × V) : State K V :=
  match findByTableBucket s (getTableBucket hasher s x.1) x.1 with
  | some _ => s
  | none =>
    rehashIfNecessary hasher
      ⟨pushBucket s.hashTable (getTableBucket hasher s x.1) s.data.length,
       s.data ++ [x]⟩

/-- erase: remove the position of the key from its bucket, swap the
element with the last one, pop the store, then rewrite the bucket entry
of the old last position.  The final std::find searches the bucket of
the last element for position data_.size() (after the pop); when the
erased element itself was the last one, that entry was just removed, the
search fails and the C++ writes through the end iterator - modelled by
none.  none is also returned for back() of an empty store. -/
def erase (hasher : K → Nat) (s : State K V) (key : K) : Option (State K V) :=
  let kb := getTableBucket hasher s key
  match findByTableBucket s kb key with
  | none => some s
  | some p =>
    let t1 := s.hashTable.set kb ((s.hashTable.getD kb []).erase p)
    match s.data.getLast? with
    | none => none
    | some lastEl =>
      let lb := hasher lastEl.1 % s.hashTable.length
      let data1 := (s.data.set p lastEl).dropLast
      if data1.length ∈ t1.getD lb [] then
        some (rehashIfNecessary hasher
          ⟨t1.set lb ((t1.getD lb []).replace data1.length p), data1⟩)
      else none

/-- clear: data_.clear() followed by RehashIfNecessary; the bucket table
itself is left to the rehash check. -/
def clear (hasher : K → Nat) (s : State K V) : State K V :=
  rehashIfNecessary hasher ⟨s.hashTable, []⟩

/-- operator[]: on a miss insert (key, ValueType()) exactly like insert
does; on a hit the state does not change.  Only the state effect is
modelled (the returned reference is re-resolved in the source). -/
def bracket [Inhabited V] (hasher : K → Nat) (s : State K V) (key : K) : State K V :=
  match findByTableBucket s (getTableBucket hasher s key) key with
  | some _ => s
  | none =>
    rehashIfNecessary hasher
      ⟨pushBucket s.hashTable (getTableBucket hasher s key) s.data.length,
       s.data ++ [(key, default)]⟩

/-- at: find, then the stored value on a hit; none models the thrown
std::out_of_range.  at is a const member, so it is a pure function of
the state and has no state output. -/
def atKey (hasher : K → Nat) (s : State K V) (key : K) : Option V :=
  match find hasher s key with
  | some i => (s.data[i]?).map Prod.snd
  | none => none

/-- The bucket-count/element-count relation that actually holds after
every RehashIfNecessary: either the table has exactly max(n, kMinLoad)
buckets, or neither resize trigger fires. -/
abbrev DensityInv (s : State K V) : Prop :=
  kMinLoad ≤ s.hashTable.length ∧
  (s.hashTable.length = max s.data.length kMinLoad ∨
   (s.data.length ≤ s.hashTable.length * kMaxLoadFactor ∧
    s.hashTable.length ≤ s.data.length * kMinLoadFactor))

/-- States of the hashtable.h variant produced by a constructor followed
by any sequence of the mutating public operations. -/
inductive Reachable (hasher : K → Nat) : State K V → Prop where
  | base : Reachable hasher (mk hasher)
  | ofRange (l : List (K × V)) : Reachable hasher (ofList hasher l)
  | insertStep {s : State K V} (x : K × V) :
      Reachable hasher s → Reachable hasher (insert hasher s x)
  | eraseStep {s t : State K V} (key : K) :
      Reachable hasher s → erase hasher s key = some t → Reachable hasher t
  | clearStep {s : State K V} :
      Reachable hasher s → Reachable hasher (clear hasher s)
  | bracketStep [Inhabited V] {s : State K V} (key : K) :
      Reachable hasher s → Reachable hasher (bracket hasher s key)

end HT

namespace MC

/-- State of the src/HashMap.cpp variant: the members hash_table and els
of class HashMap. -/
structure State (K V : Type) where
  hashTable : List (List Nat)
  els : List (K × V)
deriving DecidableEq

variable {K V : Type} [DecidableEq K]

/-- rehash: rebuild to els.size() * 2 + 1 buckets whenever the table is
not strictly larger than the store, or more than 4 times larger plus 1. -/
def rehash (hasher : K → Nat) (s : State K V) : State K V :=
  if s.hashTable.length ≤ s.els.length ∨ s.els.length * 4 + 1 < s.hashTable.length then
    ⟨newTable hasher (s.els.length * 2 + 1) s.els, s.els⟩
  else s

/-- The default constructor: it only runs rehash, leaving 1 bucket. -/
def mk (hasher : K → Nat) : State K V := rehash hasher ⟨[], []⟩

/-- find: scan the bucket of the key. -/
def find (hasher : K → Nat) (s : State K V) (key : K) : Option Nat :=
  scanBucket s.els (s.hashTable.getD (hasher key % s.hashTable.length) []) key

/-- insert: no-op on a hit, otherwise push position and pair, then rehash. -/
def insert (hasher : K → Nat) (s : State K V) (elem : K × V) : State K V :=
  match find hasher s elem.1 with
  | some _ => s
  | none =>
    rehash hasher
      ⟨pushBucket s.hashTable (hasher elem.1 % s.hashTable.length) s.els.length,
       s.els ++ [elem]⟩

/-- erase: remove the position from its bucket, rewrite every entry of
the last-element bucket that equals the old last position (a guarded
loop, so a missing entry is skipped rather than undefined), swap with
the back, pop, rehash.  The getLast? none arm is dead code: a successful
find implies a nonempty store. -/
def erase (hasher : K → Nat) (s : State K V) (key : K) : State K V :=
  match find hasher s key with
  | none => s
  | some idx =>
    let index := hasher key % s.hashTable.length
    let t1 := s.hashTable.set index ((s.hashTable.getD index []).erase idx)
    match s.els.getLast? with
    | none => s
    | some lastEl =>
      let hsh := hasher lastEl.1 % s.hashTable.length
      let t2 := t1.set hsh
        ((t1.getD hsh []).map fun el => if el + 1 = s.els.length then idx else el)
      rehash hasher ⟨t2, (s.els.set idx lastEl).dropLast⟩

/-- clear: els.clear() then rehash. -/
def clear (hasher : K → Nat) (s : State K V) : State K V :=
  rehash hasher ⟨s.hashTable, []⟩

/-- at: find, then els[pos].second on a hit; none models the thrown
std::out_of_range.  at is const, hence a pure function of the state. -/
def atKey (hasher : K → Nat) (s : State K V) (key : K) : Option V :=
  match find hasher s key with
  | some i => (s.els[i]?).map Prod.snd
  | none => none

end MC

namespace HM

/-- State of the src/hash_map.h variant: the members sz, els, indexes
and hashmap of class HashMap. -/
structure State (K V : Type) where
  sz : Nat
  els : Nat
  indexes : List (List Nat)
  hashmap : List (K × V)
deriving DecidableEq

variable {K V : Type} [DecidableEq K]

/-- The default constructor: all members default-initialized, in
particular sz = 0 and an empty bucket table. -/
def mk : State K V := ⟨0, 0, [], []⟩

/-- find: guarded by sz == 0, then scan the bucket of the key. -/
def find (hasher : K → Nat) (s : State K V) (key : K) : Option Nat :=
  if s.sz = 0 then none
  else scanBucket s.hashmap (s.indexes.getD (hasher key % s.sz) []) key

mutual

/-- insert with explicit recursion fuel.  The source insert calls
rebuild, whose loop calls insert back; the fuel bounds that mutual
recursion depth and none models running out (which cannot happen from a
well-formed state: the rebuilt table has sz >= els + 1 buckets, so the
inner inserts never trigger a further rebuild - proved below).  On
overflow of the load check the source doubles sz first (sz = sz * 2 + 1)
and rebuild then clears the counters and re-inserts every stored pair. -/
def insertF (hasher : K → Nat) : Nat → State K V → K × V → Option (State K V)
  | 0, _, _ => none
  | fuel + 1, s, x =>
    match find hasher s x.1 with
    | some _ => some s
    | none =>
      match
        (if s.els + 1 > s.sz then
          insertListF hasher fuel
            ⟨s.sz * 2 + 1, 0, List.replicate (s.sz * 2 + 1) [], []⟩ s.hashmap
        else some s) with
      | none => none
      | some s1 =>
        some { s1 with
          els := s1.els + 1,
          indexes := pushBucket s1.indexes (hasher x.1 % s1.sz) s1.els,
          hashmap := s1.hashmap ++ [x] }
termination_by fuel s x => (fuel, 0, 0)

/-- The re-insertion loop of rebuild: for (auto i : tmp) insert(i). -/
def insertListF (hasher : K → Nat) : Nat → State K V → List (K × V) → Option (State K V)
  | _, acc, [] => some acc
  | fuel, acc, y :: ys =>
    match insertF hasher fuel acc y with
    | none => none
    | some acc1 => insertListF hasher fuel acc1 ys
termination_by fuel acc l => (fuel, l.length, 1)

end

/-- insert: fuel 2 covers the one rebuild a single insert can trigger. -/
def insert (hasher : K → Nat) (s : State K V) (x : K × V) : Option (State K V) :=
  insertF hasher 2 s x

/-- rebuild, standalone: move the store aside, reset the counters,
resize indexes to the current sz, and re-insert every pair.  The inner
inserts get fuel 1, enough whenever they trigger no further rebuild. -/
def rebuild (hasher : K → Nat) (s : State K V) : Option (State K V) :=
  insertListF hasher 1 ⟨s.sz, 0, List.replicate s.sz [], []⟩ s.hashmap

/-- erase.  First branch: the key sits in the last stored pair, so the
store is popped and the entry els-1 is removed from its bucket - no swap
and no rewrite.  Second branch: find the position good of the key in its
bucket, rewrite the entry els-1 of the bucket of the last element to
good, remove good from the bucket of the key, overwrite slot good with
the last pair and pop.  The unguarded while loops of the source demand
the searched value to be present in the bucket; a miss would run past
the end of the bucket, modelled by none. -/
def erase (hasher : K → Nat) (s : State K V) (key : K) : Option (State K V) :=
  match find hasher s key with
  | none => some s
  | some _ =>
    match s.hashmap.getLast? with
    | none => none
    | some last =>
      if last.1 = key then
        let pos := hasher last.1 % s.sz
        if s.els - 1 ∈ s.indexes.getD pos [] then
          some { s with
            hashmap := s.hashmap.dropLast,
            els := s.els - 1,
            indexes := s.indexes.set pos ((s.indexes.getD pos []).erase (s.els - 1)) }
        else none
      else
        let pos1 := hasher last.1 % s.sz
        let pos := hasher key % s.sz
        let good := (s.indexes.getD pos []).foldl
          (fun g i =>
            match s.hashmap[i]? with
            | some kv => if kv.1 = key then i else g
            | none => g) 0
        if s.els - 1 ∈ s.indexes.getD pos1 [] then
          let idx1 := s.indexes.set pos1 ((s.indexes.getD pos1 []).replace (s.els - 1) good)
          if good ∈ idx1.getD pos [] then
            some { s with
              els := s.els - 1,
              indexes := idx1.set pos ((idx1.getD pos []).erase good),
              hashmap := (s.hashmap.set good last).dropLast }
            else none
        else none

/-- clear: sz = 1, els = 0, both containers cleared, indexes resized
to one empty bucket; independent of the previous state. -/
def clear (_ : State K V) : State K V := ⟨1, 0, List.replicate 1 [], []⟩

/-- at: throw (none) when find misses, otherwise the found value.  at is
const, hence a pure function of the state. -/
def atKey (hasher : K → Nat) (s : State K V) (key : K) : Option V :=
  match find hasher s key with
  | none => none
  | some i => (s.hashmap[i]?).map Prod.snd

end HM

section Invariants

variable {K V : Type} [DecidableEq K]

/-- Well-formedness of a hashtable.h state: nonempty bucket table, index
correctness, unique keys. -/
abbrev InvHT (hasher : K → Nat) (s : HT.State K V) : Prop :=
  0 < s.hashTable.length ∧ TableInv hasher s.hashTable s.data ∧ KeysNodup s.data

/-- Well-formedness of a HashMap.cpp state. -/
abbrev InvMC (hasher : K → Nat) (s : MC.State K V) : Prop :=
  0 < s.hashTable.length ∧ TableInv hasher s.hashTable s.els ∧ KeysNodup s.els

/-- Well-formedness of a hash_map.h state: the counters els and sz track
the store and table sizes, the store never outgrows the table, and the
index is correct with unique keys. -/
abbrev InvHM (hasher : K → Nat) (s : HM.State K V) : Prop :=
  s.els = s.hashmap.length ∧ s.sz = s.indexes.length ∧ s.els ≤ s.sz ∧
  TableInv hasher s.indexes s.hashmap ∧ KeysNodup s.hashmap

/-- Iterated insert into the hashtable.h variant. -/
def insertChain (hasher : K → Nat) (s : HT.State K V) (l : List (K × V)) : HT.State K V :=
  l.foldl (HT.insert hasher) s

/-- Iterated erase in the hashtable.h variant, threading the undefined
behaviour marker. -/
def eraseChain (hasher : K → Nat) (s : HT.State K V) (ks : List K) : Option (HT.State K V) :=
  ks.foldl (fun acc k => acc.bind fun t => HT.erase hasher t k) (some s)

end Invariants

section SharedLemmas

variable {K V : Type} [DecidableEq K] {hasher : K → Nat}

theorem pushBucket_length (t : List (List Nat)) (j p : Nat) :
    (pushBucket t j p).length = t.length := by
  simp [pushBucket]

theorem getD_pushBucket_self {t : List (List Nat)} {j : Nat} (hj : j < t.length) (p : Nat) :
    (pushBucket t j p).getD j [] = t.getD j [] ++ [p] := by
  simp [pushBucket, List.getD_eq_getElem?_getD, List.getElem?_set_self hj]

theorem getD_pushBucket_ne {t : List (List Nat)} {j j' : Nat} (h : j ≠ j') (p : Nat) :
    (pushBucket t j p).getD j' [] = t.getD j' [] := by
  simp [pushBucket, List.getD_eq_getElem?_getD, List.getElem?_set_ne h]

theorem getD_replicate {m j : Nat} : (List.replicate m ([] : List Nat)).getD j [] = [] := by
  simp only [List.getD_eq_getElem?_getD, List.getElem?_replicate]
  split <;> rfl

theorem getElem?_some_lt {α : Type} {l : List α} {i : Nat} {a : α}
    (h : l[i]? = some a) : i < l.length := by
  rcases List.getElem?_eq_some_iff.mp h with ⟨hi, _⟩
  exact hi

theorem scanBucketPred_eq_true {data : List (K × V)} {key : K} {i : Nat} :
    (((data[i]?).any fun kv => decide (kv.1 = key)) = true) ↔
      ∃ kv, data[i]? = some kv ∧ kv.1 = key := by
  cases h : data[i]? <;> simp [h]

theorem scanBucket_eq_none {data : List (K × V)} {bkt : List Nat} {key : K} :
    scanBucket data bkt key = none ↔
      ∀ i ∈ bkt, ∀ kv, data[i]? = some kv → kv.1 ≠ key := by
  unfold scanBucket
  rw [List.find?_eq_none]
  constructor
  · intro h i hi kv hkv hk
    exact h i hi (scanBucketPred_eq_true.mpr ⟨kv, hkv, hk⟩)
  · intro h i hi hp
    rcases scanBucketPred_eq_true.mp hp with ⟨kv, hkv, hk⟩
    exact h i hi kv hkv hk

theorem scanBucket_some {data : List (K × V)} {bkt : List Nat} {key : K} {i : Nat}
    (h : scanBucket data bkt key = some i) :
    i ∈ bkt ∧ ∃ kv, data[i]? = some kv ∧ kv.1 = key := by
  unfold scanBucket at h
  have h1 := List.mem_of_find?_eq_some h
  have h2 := List.find?_some h
  exact ⟨h1, scanBucketPred_eq_true.mp h2⟩

theorem find?_eq_some_unique {α : Type} {p : α → Bool} {l : List α} {a : α}
    (ha : a ∈ l) (hpa : p a = true) (huniq : ∀ b ∈ l, p b = true → b = a) :
    l.find? p = some a := by
  induction l with
  | nil => cases ha
  | cons x xs ih =>
    by_cases hx : p x = true
    · have hxa : x = a := huniq x (List.mem_cons_self x xs) hx
      subst hxa
      simp [List.find?_cons_of_pos _ hx]
    · have hax : a ≠ x := fun he => hx (he ▸ hpa)
      have ha2 : a ∈ xs := by
        rcases List.mem_cons.mp ha with h1 | h1
        · exact absurd h1 hax
        · exact h1
      rw [List.find?_cons_of_neg _ hx]
      exact ih ha2 (fun b hb hpb => huniq b (List.mem_cons_of_mem _ hb) hpb)

theorem scanBucket_eq_some_of_unique {data : List (K × V)} {bkt : List Nat} {key : K}
    {n : Nat} {v : V} (hmem : n ∈ bkt) (hn : data[n]? = some (key, v))
    (huniq : ∀ i ∈ bkt, ∀ kv, data[i]? = some kv → kv.1 = key → i = n) :
    scanBucket data bkt key = some n := by
  apply find?_eq_some_unique hmem
  · exact scanBucketPred_eq_true.mpr ⟨(key, v), hn, rfl⟩
  · intro b hb hpb
    rcases scanBucketPred_eq_true.mp hpb with ⟨kv, hkv, hk⟩
    exact huniq b hb kv hkv hk

theorem scanBucket_absent {data : List (K × V)} {key : K}
    (habs : key ∉ data.map Prod.fst) (bkt : List Nat) :
    scanBucket data bkt key = none := by
  rw [scanBucket_eq_none]
  intro i _ kv hkv hk
  exact habs (hk ▸ List.mem_map_of_mem Prod.fst (List.mem_iff_getElem?.mpr ⟨i, hkv⟩))

theorem newTable_foldl_length (m : Nat) :
    ∀ (l : List (Nat × (K × V))) (t : List (List Nat)),
      (l.foldl (fun t pkv => pushBucket t (hasher pkv.2.1 % m) pkv.1) t).length
        = t.length := by
  intro l
  induction l with
  | nil => intro t; rfl
  | cons i is ih =>
    intro t
    rw [List.foldl_cons, ih, pushBucket_length]

theorem newTable_foldl_getD (m j : Nat) :
    ∀ (l : List (Nat × (K × V))) (t : List (List Nat)),
      (∀ pkv ∈ l, hasher pkv.2.1 % m < t.length) →
      (l.foldl (fun t pkv => pushBucket t (hasher pkv.2.1 % m) pkv.1) t).getD j [] =
        t.getD j [] ++
          (l.filter fun pkv => decide (hasher pkv.2.1 % m = j)).map Prod.fst := by
  intro l
  induction l with
  | nil => intro t _; simp
  | cons x xs ih =>
    intro t hb
    have hlt : hasher x.2.1 % m < t.length := hb x (List.mem_cons_self x xs)
    rw [List.foldl_cons, List.filter_cons,
      ih (pushBucket t (hasher x.2.1 % m) x.1)
        (fun y hy => by
          rw [pushBucket_length]
          exact hb y (List.mem_cons_of_mem _ hy))]
    by_cases hj : hasher x.2.1 % m = j
    · rw [hj, getD_pushBucket_self (hj ▸ hlt)]
      simp [hj, List.append_assoc]
    · rw [getD_pushBucket_ne hj]
      simp [hj]

theorem newTable_length (m : Nat) (data : List (K × V)) :
    (newTable hasher m data).length = m := by
  unfold newTable
  rw [newTable_foldl_length]
  exact List.length_replicate m []

theorem newTable_getD (m j : Nat) (hm : 0 < m) (data : List (K × V)) :
    (newTable hasher m data).getD j [] =
      (data.enum.filter fun pkv => decide (hasher pkv.2.1 % m = j)).map Prod.fst := by
  unfold newTable
  rw [newTable_foldl_getD]
  · rw [getD_replicate, List.nil_append]
  · intro pkv _
    rw [List.length_replicate]
    exact Nat.mod_lt _ hm

theorem newTable_tableInv (m : Nat) (hm : 0 < m) (data : List (K × V)) :
    TableInv hasher (newTable hasher m data) data := by
  have hlen : (newTable hasher m data).length = m := newTable_length m data
  refine ⟨?_, ?_, ?_⟩
  · intro j hj p hp
    rw [newTable_getD m j hm data] at hp
    rcases List.mem_map.mp hp with ⟨pkv, hmem, hfst⟩
    rcases List.mem_filter.mp hmem with ⟨henum, hpred⟩
    have hget : data[pkv.1]? = some pkv.2 := by
      have := List.mk_mem_enum_iff_getElem?.mp (show (pkv.1, pkv.2) ∈ data.enum by
        simpa using henum)
      exact this
    rw [hlen]
    rw [← hfst]
    simp only [List.getElem?_map, hget, Option.map_some]
    simpa using hpred
  · intro p hp
    rw [hlen, newTable_getD m _ hm data]
    have hget : data[p]? = some (data.get ⟨p, hp⟩) := by
      rw [List.get_eq_getElem]
      exact List.getElem?_eq_getElem hp
    refine List.mem_map.mpr ⟨(p, data.get ⟨p, hp⟩), ?_, rfl⟩
    refine List.mem_filter.mpr ⟨List.mk_mem_enum_iff_getElem?.mpr hget, by simp⟩
  · intro j _
    rw [newTable_getD m j hm data]
    exact List.Nodup.sublist
      (List.Sublist.map Prod.fst (List.filter_sublist data.enum))
      (List.nodup_enum_map_fst data)

theorem tableInv_entry_spec {table : List (List Nat)} {data : List (K × V)}
    (hinv : TableInv hasher table data) {j p : Nat}
    (hj : j < table.length) (hp : p ∈ table.getD j []) :
    ∃ kv, data[p]? = some kv ∧ hasher kv.1 % table.length = j := by
  have h1 := hinv.1 j hj p hp
  rw [List.getElem?_map] at h1
  rcases Option.map_eq_some'.mp h1 with ⟨kv, hkv, hf⟩
  exact ⟨kv, hkv, hf⟩

theorem tableInv_entry_lt {table : List (List Nat)} {data : List (K × V)}
    (hinv : TableInv hasher table data) {j p : Nat}
    (hj : j < table.length) (hp : p ∈ table.getD j []) : p < data.length := by
  rcases tableInv_entry_spec hinv hj hp with ⟨kv, hkv, _⟩
  exact getElem?_some_lt hkv

theorem tableInv_mem_bucket {table : List (List Nat)} {data : List (K × V)}
    (hinv : TableInv hasher table data) {p : Nat} {kv : K × V}
    (hget : data[p]? = some kv) :
    p ∈ table.getD (hasher kv.1 % table.length) [] := by
  have hp := getElem?_some_lt hget
  have h1 := hinv.2.1 p hp
  have h2 : data.get ⟨p, hp⟩ = kv := by
    apply Option.some.inj
    rw [List.get_eq_getElem, ← List.getElem?_eq_getElem hp, hget]
  rw [h2] at h1
  exact h1

theorem scanBucket_find_present {table : List (List Nat)} {data : List (K × V)}
    (hinv : TableInv hasher table data) {k : K} {v : V} {p : Nat}
    (hget : data[p]? = some (k, v)) :
    ∃ i, scanBucket data (table.getD (hasher k % table.length) []) k = some i := by
  cases hfs : scanBucket data (table.getD (hasher k % table.length) []) k with
  | some i => exact ⟨i, rfl⟩
  | none =>
    exfalso
    rw [scanBucket_eq_none] at hfs
    exact hfs p (tableInv_mem_bucket hinv hget) (k, v) hget rfl

theorem scanBucket_find_unique {table : List (List Nat)} {data : List (K × V)}
    (hinv : TableInv hasher table data) {k : K} {v : V} {n : Nat}
    (hn : data[n]? = some (k, v))
    (huniq : ∀ i kv, data[i]? = some kv → kv.1 = k → i = n) :
    scanBucket data (table.getD (hasher k % table.length) []) k = some n :=
  scanBucket_eq_some_of_unique (tableInv_mem_bucket hinv hn) hn
    (fun i _ kv hkv hk => huniq i kv hkv hk)

theorem keysNodup_index_unique {data : List (K × V)} (h : KeysNodup data)
    {i j : Nat} {k : K} {a b : V}
    (hi : data[i]? = some (k, a)) (hj : data[j]? = some (k, b)) : i = j := by
  have h1 : (data.map Prod.fst)[i]? = some k := by simp [hi]
  have h2 : (data.map Prod.fst)[j]? = some k := by simp [hj]
  rcases List.getElem?_eq_some_iff.mp h1 with ⟨hi1, hgi⟩
  rcases List.getElem?_eq_some_iff.mp h2 with ⟨hj1, hgj⟩
  exact (List.Nodup.getElem_inj_iff h).mp (hgi.trans hgj.symm)

theorem appended_key_unique {data : List (K × V)} {k : K} {v : V}
    (habs : k ∉ data.map Prod.fst) :
    ∀ i kv, (data ++ [(k, v)])[i]? = some kv → kv.1 = k → i = data.length := by
  intro i kv hkv hk
  rcases Nat.lt_trichotomy i data.length with hi | hi | hi
  · exfalso
    rw [List.getElem?_append_left hi] at hkv
    exact habs (hk ▸ List.mem_map_of_mem Prod.fst (List.mem_iff_getElem?.mpr ⟨i, hkv⟩))
  · exact hi
  · exfalso
    have hlt := getElem?_some_lt hkv
    simp only [List.length_append, List.length_cons, List.length_nil] at hlt
    omega

theorem keysNodup_append {data : List (K × V)} {k : K} (h : KeysNodup data)
    (habs : k ∉ data.map Prod.fst) (v : V) : KeysNodup (data ++ [(k, v)]) := by
  unfold KeysNodup at *
  rw [List.map_append]
  simp only [List.map_cons, List.map_nil, List.nodup_append]
  refine ⟨h, List.nodup_singleton k, ?_⟩
  intro a ha hmem
  rcases List.mem_singleton.mp hmem with rfl
  exact habs ha

theorem map_append_left {f : K × V → Nat} {data : List (K × V)} {x : K × V} {p : Nat}
    (hp : p < data.length) : ((data ++ [x]).map f)[p]? = (data.map f)[p]? := by
  rw [List.map_append]
  exact List.getElem?_append_left (by simpa using hp)

theorem map_append_last {f : K × V → Nat} {data : List (K × V)} {x : K × V} :
    ((data ++ [x]).map f)[data.length]? = some (f x) := by
  rw [List.map_append]
  have h := List.getElem?_concat_length (data.map f) (f x)
  rw [List.length_map] at h
  exact h

theorem mapped_some_lt {f : K × V → Nat} {data : List (K × V)} {p j : Nat}
    (h : (data.map f)[p]? = some j) : p < data.length := by
  have := getElem?_some_lt h
  simpa using this

theorem tableInv_push_append {table : List (List Nat)} {data : List (K × V)}
    (hinv : TableInv hasher table data) (hlen : 0 < table.length) (x : K × V) :
    TableInv hasher
      (pushBucket table (hasher x.1 % table.length) data.length) (data ++ [x]) := by
  have hb : hasher x.1 % table.length < table.length := Nat.mod_lt _ hlen
  have hplen : (pushBucket table (hasher x.1 % table.length) data.length).length
      = table.length := pushBucket_length table _ _
  refine ⟨?_, ?_, ?_⟩
  · intro j hj p hp
    rw [hplen] at hj ⊢
    by_cases hjb : hasher x.1 % table.length = j
    · rw [← hjb] at hp ⊢
      rw [getD_pushBucket_self hb] at hp
      rcases List.mem_append.mp hp with hpold | hpnew
      · have hold := hinv.1 _ hb p hpold
        rw [map_append_left (mapped_some_lt hold)]
        exact hold
      · have hpn : p = data.length := by simpa using hpnew
        rw [hpn, map_append_last]
    · rw [getD_pushBucket_ne hjb] at hp
      have hold := hinv.1 j hj p hp
      rw [map_append_left (mapped_some_lt hold)]
      exact hold
  · intro p hp
    rw [hplen]
    have hlp : p < data.length + 1 := by simpa using hp
    rcases Nat.lt_or_ge p data.length with hcase | hcase
    · have hgeq : (data ++ [x]).get ⟨p, hp⟩ = data.get ⟨p, hcase⟩ := by
        rw [List.get_eq_getElem, List.get_eq_getElem]
        exact List.getElem_append_left hcase
      rw [hgeq]
      have hold := hinv.2.1 p hcase
      by_cases hjb : hasher x.1 % table.length
          = hasher (data.get ⟨p, hcase⟩).1 % table.length
      · rw [← hjb] at hold ⊢
        rw [getD_pushBucket_self hb]
        exact List.mem_append_left _ hold
      · rw [getD_pushBucket_ne hjb]
        exact hold
    · have hpn : p = data.length := by omega
      have hgeq : (data ++ [x]).get ⟨p, hp⟩ = x := by
        rw [List.get_eq_getElem, List.getElem_append_right (by exact hcase)]
        simp [hpn]
      rw [hgeq, getD_pushBucket_self hb, hpn]
      exact List.mem_append_right _ (List.mem_singleton.mpr rfl)
  · intro j hj
    rw [hplen] at hj
    by_cases hjb : hasher x.1 % table.length = j
    · rw [← hjb, getD_pushBucket_self hb]
      rw [List.nodup_append]
      refine ⟨hinv.2.2 _ hb, List.nodup_singleton _, ?_⟩
      intro a ha hmem
      rcases List.mem_singleton.mp hmem with rfl
      exact Nat.lt_irrefl _ (tableInv_entry_lt hinv hb ha)
    · rw [getD_pushBucket_ne hjb]
      exact hinv.2.2 j hj

end SharedLemmas

section HTLemmas

variable {K V : Type} [DecidableEq K] {hasher : K → Nat}

theorem ht_rehash_data (s : HT.State K V) :
    (HT.rehashIfNecessary hasher s).data = s.data := by
  unfold HT.rehashIfNecessary
  split_ifs <;> rfl

theorem ht_rehash_cases (s : HT.State K V) :
    HT.rehashIfNecessary hasher s = s ∨
      ∃ m, 0 < m ∧
        HT.rehashIfNecessary hasher s = ⟨newTable hasher m s.data, s.data⟩ := by
  unfold HT.rehashIfNecessary
  split_ifs with h1 h2 h3
  · right
    refine ⟨HT.kMinLoad, by norm_num [HT.kMinLoad], ?_⟩
    have hd : s.data = [] := List.length_eq_zero.mp h1.2
    rw [hd]
    rfl
  · left; rfl
  · right
    refine ⟨max s.data.length HT.kMinLoad, ?_, rfl⟩
    have : (0 : Nat) < HT.kMinLoad := by norm_num [HT.kMinLoad]
    exact Nat.lt_of_lt_of_le this (Nat.le_max_right _ _)
  · left; rfl

theorem ht_state_find_at {table : List (List Nat)} {data : List (K × V)}
    {k : K} {v : V} {n : Nat}
    (htinv : TableInv hasher table data)
    (hn : data[n]? = some (k, v))
    (huniq : ∀ i kv, data[i]? = some kv → kv.1 = k → i = n) :
    HT.find hasher ⟨table, data⟩ k = some n ∧
      HT.atKey hasher (⟨table, data⟩ : HT.State K V) k = some v := by
  have hfind : HT.find hasher (⟨table, data⟩ : HT.State K V) k = some n := by
    unfold HT.find HT.findByTableBucket HT.getTableBucket
    exact scanBucket_find_unique htinv hn huniq
  refine ⟨hfind, ?_⟩
  unfold HT.atKey
  rw [hfind]
  show Option.map Prod.snd data[n]? = some v
  rw [hn]
  rfl

theorem ht_insert_roundtrip {s : HT.State K V} {k : K} {v : V}
    (hinv : InvHT hasher s) (habs : k ∉ s.data.map Prod.fst) :
    ∃ i, HT.find hasher (HT.insert hasher s (k, v)) k = some i ∧
      (HT.insert hasher s (k, v)).data[i]? = some (k, v) ∧
      HT.atKey hasher (HT.insert hasher s (k, v)) k = some v := by
  obtain ⟨hlen, htinv, hkeys⟩ := hinv
  have hfind : HT.findByTableBucket s (HT.getTableBucket hasher s k) k = none :=
    scanBucket_absent habs _
  have hins : HT.insert hasher s (k, v) =
      HT.rehashIfNecessary hasher
        ⟨pushBucket s.hashTable (HT.getTableBucket hasher s k) s.data.length,
         s.data ++ [(k, v)]⟩ := by
    unfold HT.insert
    rw [hfind]
  have hu : TableInv hasher
      (pushBucket s.hashTable (HT.getTableBucket hasher s k) s.data.length)
      (s.data ++ [(k, v)]) := tableInv_push_append htinv hlen (k, v)
  have hn : (s.data ++ [(k, v)])[s.data.length]? = some (k, v) :=
    List.getElem?_concat_length s.data (k, v)
  have huniq : ∀ i kv, (s.data ++ [(k, v)])[i]? = some kv → kv.1 = k → i = s.data.length :=
    appended_key_unique habs
  rcases @ht_rehash_cases K V _ hasher
      ⟨pushBucket s.hashTable (HT.getTableBucket hasher s k) s.data.length,
       s.data ++ [(k, v)]⟩ with hcase | ⟨m, hm, hcase⟩
  · rw [hins, hcase]
    rcases ht_state_find_at hu hn huniq with ⟨hf, ha⟩
    exact ⟨s.data.length, hf, hn, ha⟩
  · rw [hins, hcase]
    have hw : TableInv hasher
        (newTable hasher m (s.data ++ [(k, v)])) (s.data ++ [(k, v)]) :=
      newTable_tableInv m hm _
    rcases ht_state_find_at hw hn huniq with ⟨hf, ha⟩
    exact ⟨s.data.length, hf, hn, ha⟩

theorem ht_find_present {s : HT.State K V} {k : K}
    (htinv : TableInv hasher s.hashTable s.data)
    (hpres : k ∈ s.data.map Prod.fst) :
    ∃ i, HT.findByTableBucket s (HT.getTableBucket hasher s k) k = some i := by
  rcases List.mem_map.mp hpres with ⟨kv, hkvmem, hk1⟩
  rcases List.mem_iff_getElem?.mp hkvmem with ⟨p, hp⟩
  have hp2 : s.data[p]? = some (k, kv.2) := by
    rw [← hk1]
    simpa using hp
  exact scanBucket_find_present htinv hp2

theorem ht_insert_noop {s : HT.State K V} {k : K} (v : V)
    (hinv : InvHT hasher s) (hpres : k ∈ s.data.map Prod.fst) :
    HT.insert hasher s (k, v) = s := by
  rcases ht_find_present hinv.2.1 hpres with ⟨i, hfind⟩
  unfold HT.insert
  rw [show HT.findByTableBucket s (HT.getTableBucket hasher s (k, v).1) (k, v).1
      = some i from hfind]

theorem ht_at_spec {s : HT.State K V} (k : K) (hinv : InvHT hasher s) :
    (HT.atKey hasher s k = none ↔ k ∉ s.data.map Prod.fst) ∧
    (∀ v, HT.atKey hasher s k = some v ↔ (k, v) ∈ s.data) := by
  obtain ⟨hlen, htinv, hkeys⟩ := hinv
  cases hfind : HT.find hasher s k with
  | none =>
    have habs : k ∉ s.data.map Prod.fst := by
      intro hpres
      rcases ht_find_present htinv hpres with ⟨i, hfb⟩
      rw [show HT.find hasher s k
          = HT.findByTableBucket s (HT.getTableBucket hasher s k) k from rfl, hfb] at hfind
      cases hfind
    have hat : HT.atKey hasher s k = none := by
      unfold HT.atKey
      rw [hfind]
    refine ⟨⟨fun _ => habs, fun _ => hat⟩, ?_⟩
    intro v
    constructor
    · intro hv
      rw [hat] at hv
      cases hv
    · intro hv
      exact absurd (List.mem_map_of_mem Prod.fst hv) habs
  | some i =>
    have hscan : scanBucket s.data
        (s.hashTable.getD (hasher k % s.hashTable.length) []) k = some i := hfind
    rcases scanBucket_some hscan with ⟨_, kv, hkv, hk1⟩
    have hkv2 : s.data[i]? = some (k, kv.2) := by
      rw [← hk1]
      simpa using hkv
    have hat : HT.atKey hasher s k = some kv.2 := by
      unfold HT.atKey
      rw [hfind]
      show Option.map Prod.snd s.data[i]? = some kv.2
      rw [hkv2]
      rfl
    have hpres : k ∈ s.data.map Prod.fst := by
      rw [← hk1]
      exact List.mem_map_of_mem Prod.fst (List.mem_iff_getElem?.mpr ⟨i, hkv⟩)
    constructor
    · constructor
      · intro h0
        rw [hat] at h0
        cases h0
      · intro h0
        exact absurd hpres h0
    · intro v
      constructor
      · intro hv
        rw [hat] at hv
        have hveq : kv.2 = v := Option.some.inj hv
        rw [← hveq]
        exact List.mem_iff_getElem?.mpr ⟨i, hkv2⟩
      · intro hv
        rcases List.mem_iff_getElem?.mp hv with ⟨j, hj⟩
        have hij : j = i := keysNodup_index_unique hkeys hj hkv2
        rw [hij] at hj
        have : (k, v) = (k, kv.2) := by
          apply Option.some.inj
          rw [← hj, hkv2]
        rw [hat, (show v = kv.2 from congrArg Prod.snd this)]

theorem ht_insert_shape (s : HT.State K V) (x : K × V) :
    HT.insert hasher s x = s ∨
      ∃ u : HT.State K V, u.hashTable.length = s.hashTable.length ∧
        HT.insert hasher s x = HT.rehashIfNecessary hasher u := by
  unfold HT.insert
  cases HT.findByTableBucket s (HT.getTableBucket hasher s x.1) x.1 with
  | some i => left; rfl
  | none =>
    right
    exact ⟨⟨pushBucket s.hashTable (HT.getTableBucket hasher s x.1) s.data.length,
      s.data ++ [x]⟩, pushBucket_length _ _ _, rfl⟩

theorem ht_bracket_shape [Inhabited V] (s : HT.State K V) (key : K) :
    HT.bracket hasher s key = s ∨
      ∃ u : HT.State K V, u.hashTable.length = s.hashTable.length ∧
        HT.bracket hasher s key = HT.rehashIfNecessary hasher u := by
  unfold HT.bracket
  cases HT.findByTableBucket s (HT.getTableBucket hasher s key) key with
  | some i => left; rfl
  | none =>
    right
    exact ⟨⟨pushBucket s.hashTable (HT.getTableBucket hasher s key) s.data.length,
      s.data ++ [(key, default)]⟩, pushBucket_length _ _ _, rfl⟩

theorem ht_erase_shape {s t : HT.State K V} {key : K}
    (h : HT.erase hasher s key = some t) :
    t = s ∨
      ∃ u : HT.State K V, u.hashTable.length = s.hashTable.length ∧
        t = HT.rehashIfNecessary hasher u := by
  simp only [HT.erase] at h
  split at h
  · left
    exact (Option.some.inj h).symm
  · split at h
    · cases h
    · split at h
      · right
        refine ⟨_, ?_, (Option.some.inj h).symm⟩
        simp
      · cases h

theorem ht_rehash_density (s : HT.State K V)
    (h : HT.kMinLoad ≤ s.hashTable.length ∨ s.hashTable.length = 0) :
    HT.DensityInv (HT.rehashIfNecessary hasher s) := by
  unfold HT.rehashIfNecessary
  split_ifs with h1 h2 h3
  · have hd : s.data.length = 0 := h1.2
    constructor
    · simp [HT.kMinLoad]
    · left
      simp [hd, HT.kMinLoad]
  · constructor
    · rw [h3]
      exact Nat.le_max_right _ _
    · left
      exact h3
  · constructor
    · show HT.kMinLoad ≤ (newTable hasher (max s.data.length HT.kMinLoad) s.data).length
      rw [newTable_length]
      exact Nat.le_max_right _ _
    · left
      show (newTable hasher (max s.data.length HT.kMinLoad) s.data).length = _
      rw [newTable_length]
  · have hnotrigger : ¬(s.hashTable.length * HT.kMaxLoadFactor < s.data.length ∨
        s.data.length * HT.kMinLoadFactor < s.hashTable.length) := h2
    push_neg at hnotrigger
    have hb3 : HT.kMinLoad ≤ s.hashTable.length := by
      rcases h with hcase | hcase
      · exact hcase
      · exfalso
        apply h1
        refine ⟨hcase, ?_⟩
        have := hnotrigger.1
        rw [hcase] at this
        simpa [HT.kMaxLoadFactor] using this
    exact ⟨hb3, Or.inr ⟨hnotrigger.1, hnotrigger.2⟩⟩

theorem ht_reachable_density {s : HT.State K V} {hasher : K → Nat}
    (h : HT.Reachable hasher s) : HT.DensityInv s := by
  induction h with
  | base =>
    apply ht_rehash_density
    right
    rfl
  | ofRange l =>
    apply ht_rehash_density
    right
    rfl
  | insertStep x hs ih =>
    rcases ht_insert_shape _ x with heq | ⟨u, hul, heq⟩
    · rw [heq]
      exact ih
    · rw [heq]
      apply ht_rehash_density
      left
      rw [hul]
      exact ih.1
  | eraseStep key hs herase ih =>
    rcases ht_erase_shape herase with heq | ⟨u, hul, heq⟩
    · rw [heq]
      exact ih
    · rw [heq]
      apply ht_rehash_density
      left
      rw [hul]
      exact ih.1
  | clearStep hs ih =>
    apply ht_rehash_density
    left
    exact ih.1
  | @bracketStep instV s2 key hs ih =>
    rcases @ht_bracket_shape K V _ hasher instV s2 key with heq | ⟨u, hul, heq⟩
    · rw [heq]
      exact ih
    · rw [heq]
      apply ht_rehash_density
      left
      rw [hul]
      exact ih.1

end HTLemmas

section MCLemmas

variable {K V : Type} [DecidableEq K] {hasher : K → Nat}

theorem mc_rehash_els (s : MC.State K V) : (MC.rehash hasher s).els = s.els := by
  unfold MC.rehash
  split_ifs <;> rfl

theorem mc_rehash_cases (s : MC.State K V) :
    MC.rehash hasher s = s ∨
      MC.rehash hasher s = ⟨newTable hasher (s.els.length * 2 + 1) s.els, s.els⟩ := by
  unfold MC.rehash
  split_ifs
  · right; rfl
  · left; rfl

theorem mc_state_find_at {table : List (List Nat)} {data : List (K × V)}
    {k : K} {v : V} {n : Nat}
    (htinv : TableInv hasher table data)
    (hn : data[n]? = some (k, v))
    (huniq : ∀ i kv, data[i]? = some kv → kv.1 = k → i = n) :
    MC.find hasher ⟨table, data⟩ k = some n ∧
      MC.atKey hasher (⟨table, data⟩ : MC.State K V) k = some v := by
  have hfind : MC.find hasher (⟨table, data⟩ : MC.State K V) k = some n := by
    unfold MC.find
    exact scanBucket_find_unique htinv hn huniq
  refine ⟨hfind, ?_⟩
  unfold MC.atKey
  rw [hfind]
  show Option.map Prod.snd data[n]? = some v
  rw [hn]
  rfl

theorem mc_insert_roundtrip {s : MC.State K V} {k : K} {v : V}
    (hinv : InvMC hasher s) (habs : k ∉ s.els.map Prod.fst) :
    ∃ i, MC.find hasher (MC.insert hasher s (k, v)) k = some i ∧
      (MC.insert hasher s (k, v)).els[i]? = some (k, v) ∧
      MC.atKey hasher (MC.insert hasher s (k, v)) k = some v := by
  obtain ⟨hlen, htinv, hkeys⟩ := hinv
  have hfind : MC.find hasher s k = none := scanBucket_absent habs _
  have hins : MC.insert hasher s (k, v) =
      MC.rehash hasher
        ⟨pushBucket s.hashTable (hasher k % s.hashTable.length) s.els.length,
         s.els ++ [(k, v)]⟩ := by
    unfold MC.insert
    rw [hfind]
  have hu : TableInv hasher
      (pushBucket s.hashTable (hasher k % s.hashTable.length) s.els.length)
      (s.els ++ [(k, v)]) := tableInv_push_append htinv hlen (k, v)
  have hn : (s.els ++ [(k, v)])[s.els.length]? = some (k, v) :=
    List.getElem?_concat_length s.els (k, v)
  have huniq : ∀ i kv, (s.els ++ [(k, v)])[i]? = some kv → kv.1 = k → i = s.els.length :=
    appended_key_unique habs
  rcases @mc_rehash_cases K V _ hasher
      ⟨pushBucket s.hashTable (hasher k % s.hashTable.length) s.els.length,
       s.els ++ [(k, v)]⟩ with hcase | hcase
  · rw [hins, hcase]
    rcases mc_state_find_at hu hn huniq with ⟨hf, ha⟩
    exact ⟨s.els.length, hf, hn, ha⟩
  · rw [hins, hcase]
    have hw : TableInv hasher
        (newTable hasher ((s.els ++ [(k, v)]).length * 2 + 1) (s.els ++ [(k, v)]))
        (s.els ++ [(k, v)]) :=
      newTable_tableInv _ (Nat.succ_pos _) _
    rcases mc_state_find_at hw hn huniq with ⟨hf, ha⟩
    exact ⟨s.els.length, hf, hn, ha⟩

theorem mc_find_present {s : MC.State K V} {k : K}
    (htinv : TableInv hasher s.hashTable s.els)
    (hpres : k ∈ s.els.map Prod.fst) :
    ∃ i, MC.find hasher s k = some i := by
  rcases List.mem_map.mp hpres with ⟨kv, hkvmem, hk1⟩
  rcases List.mem_iff_getElem?.mp hkvmem with ⟨p, hp⟩
  have hp2 : s.els[p]? = some (k, kv.2) := by
    rw [← hk1]
    simpa using hp
  exact scanBucket_find_present htinv hp2

theorem mc_insert_noop {s : MC.State K V} {k : K} (v : V)
    (hinv : InvMC hasher s) (hpres : k ∈ s.els.map Prod.fst) :
    MC.insert hasher s (k, v) = s := by
  rcases mc_find_present hinv.2.1 hpres with ⟨i, hfind⟩
  unfold MC.insert
  rw [show MC.find hasher s (k, v).1 = some i from hfind]

theorem mc_at_spec {s : MC.State K V} (k : K) (hinv : InvMC hasher s) :
    (MC.atKey hasher s k = none ↔ k ∉ s.els.map Prod.fst) ∧
    (∀ v, MC.atKey hasher s k = some v ↔ (k, v) ∈ s.els) := by
  obtain ⟨hlen, htinv, hkeys⟩ := hinv
  cases hfind : MC.find hasher s k with
  | none =>
    have habs : k ∉ s.els.map Prod.fst := by
      intro hpres
      rcases mc_find_present htinv hpres with ⟨i, hfb⟩
      rw [hfb] at hfind
      cases hfind
    have hat : MC.atKey hasher s k = none := by
      unfold MC.atKey
      rw [hfind]
    refine ⟨⟨fun _ => habs, fun _ => hat⟩, ?_⟩
    intro v
    constructor
    · intro hv
      rw [hat] at hv
      cases hv
    · intro hv
      exact absurd (List.mem_map_of_mem Prod.fst hv) habs
  | some i =>
    have hscan : scanBucket s.els
        (s.hashTable.getD (hasher k % s.hashTable.length) []) k = some i := hfind
    rcases scanBucket_some hscan with ⟨_, kv, hkv, hk1⟩
    have hkv2 : s.els[i]? = some (k, kv.2) := by
      rw [← hk1]
      simpa using hkv
    have hat : MC.atKey hasher s k = some kv.2 := by
      unfold MC.atKey
      rw [hfind]
      show Option.map Prod.snd s.els[i]? = some kv.2
      rw [hkv2]
      rfl
    have hpres : k ∈ s.els.map Prod.fst := by
      rw [← hk1]
      exact List.mem_map_of_mem Prod.fst (List.mem_iff_getElem?.mpr ⟨i, hkv⟩)
    constructor
    · constructor
      · intro h0
        rw [hat] at h0
        cases h0
      · intro h0
        exact absurd hpres h0
    · intro v
      constructor
      · intro hv
        rw [hat] at hv
        have hveq : kv.2 = v := Option.some.inj hv
        rw [← hveq]
        exact List.mem_iff_getElem?.mpr ⟨i, hkv2⟩
      · intro hv
        rcases List.mem_iff_getElem?.mp hv with ⟨j, hj⟩
        have hij : j = i := keysNodup_index_unique hkeys hj hkv2
        rw [hij] at hj
        have heq2 : (k, v) = (k, kv.2) := by
          apply Option.some.inj
          rw [← hj, hkv2]
        rw [hat, (show v = kv.2 from congrArg Prod.snd heq2)]

end MCLemmas

section HMLemmas

variable {K V : Type} [DecidableEq K] {hasher : K → Nat}

theorem hm_find_absent {s : HM.State K V} {k : K}
    (habs : k ∉ s.hashmap.map Prod.fst) : HM.find hasher s k = none := by
  unfold HM.find
  split_ifs with h
  · rfl
  · exact scanBucket_absent habs _

theorem hm_empty_acc_inv (m : Nat) :
    InvHM hasher (⟨m, 0, List.replicate m [], []⟩ : HM.State K V) := by
  refine ⟨rfl, by simp, by simp, ⟨?_, ?_, ?_⟩, by simp [KeysNodup]⟩
  · intro j hj p hp
    rw [getD_replicate] at hp
    cases hp
  · intro p hp
    simp at hp
  · intro j hj
    rw [getD_replicate]
    exact List.nodup_nil

theorem hm_append_inv {s1 : HM.State K V} {x : K × V}
    (hinv : InvHM hasher s1) (habs : x.1 ∉ s1.hashmap.map Prod.fst)
    (hroom : s1.els + 1 ≤ s1.sz) :
    InvHM hasher ⟨s1.sz, s1.els + 1,
      pushBucket s1.indexes (hasher x.1 % s1.sz) s1.els, s1.hashmap ++ [x]⟩ := by
  obtain ⟨hels, hsz, hle, htinv, hkeys⟩ := hinv
  have hlen0 : 0 < s1.indexes.length := by omega
  refine ⟨?_, ?_, hroom, ?_, keysNodup_append hkeys habs x.2⟩
  · simp [hels]
  · rw [pushBucket_length]
    exact hsz
  · show TableInv hasher
      (pushBucket s1.indexes (hasher x.1 % s1.sz) s1.els) (s1.hashmap ++ [x])
    rw [hsz, hels]
    exact tableInv_push_append htinv hlen0 x

theorem hm_insertF_step {fuel : Nat} {s : HM.State K V} {x : K × V}
    (hinv : InvHM hasher s) (habs : x.1 ∉ s.hashmap.map Prod.fst)
    (hroom : s.els + 1 ≤ s.sz) :
    HM.insertF hasher (fuel + 1) s x =
      some ⟨s.sz, s.els + 1, pushBucket s.indexes (hasher x.1 % s.sz) s.els,
        s.hashmap ++ [x]⟩ := by
  have hfind : HM.find hasher s x.1 = none := hm_find_absent habs
  simp only [HM.insertF]
  rw [hfind, if_neg (by omega)]

theorem hm_insertListF_append {fuel : Nat} :
    ∀ (l : List (K × V)) (acc : HM.State K V),
      InvHM hasher acc →
      KeysNodup (acc.hashmap ++ l) →
      acc.hashmap.length + l.length ≤ acc.sz →
      ∃ t, HM.insertListF hasher (fuel + 1) acc l = some t ∧
        t.sz = acc.sz ∧ t.hashmap = acc.hashmap ++ l ∧ InvHM hasher t := by
  intro l
  induction l with
  | nil =>
    intro acc hinv _ _
    exact ⟨acc, by simp [HM.insertListF], rfl, by simp, hinv⟩
  | cons y ys ih =>
    intro acc hinv hnodup hroom
    have habs : y.1 ∉ acc.hashmap.map Prod.fst := by
      unfold KeysNodup at hnodup
      rw [List.map_append] at hnodup
      rcases List.nodup_append.mp hnodup with ⟨_, _, hdisj⟩
      intro hmem
      exact hdisj hmem (by simp)
    have hroom1 : acc.els + 1 ≤ acc.sz := by
      have hels := hinv.1
      simp only [List.length_cons] at hroom
      omega
    have hstep := @hm_insertF_step K V _ hasher fuel acc y hinv habs hroom1
    have hinv1 := hm_append_inv hinv habs hroom1
    have hnodup1 : KeysNodup
        ((⟨acc.sz, acc.els + 1, pushBucket acc.indexes (hasher y.1 % acc.sz) acc.els,
          acc.hashmap ++ [y]⟩ : HM.State K V).hashmap ++ ys) := by
      show KeysNodup ((acc.hashmap ++ [y]) ++ ys)
      rw [List.append_assoc]
      simpa using hnodup
    have hroom2 :
        (⟨acc.sz, acc.els + 1, pushBucket acc.indexes (hasher y.1 % acc.sz) acc.els,
          acc.hashmap ++ [y]⟩ : HM.State K V).hashmap.length + ys.length ≤
        (⟨acc.sz, acc.els + 1, pushBucket acc.indexes (hasher y.1 % acc.sz) acc.els,
          acc.hashmap ++ [y]⟩ : HM.State K V).sz := by
      show (acc.hashmap ++ [y]).length + ys.length ≤ acc.sz
      simp only [List.length_append, List.length_cons, List.length_nil] at hroom ⊢
      omega
    rcases ih _ hinv1 hnodup1 hroom2 with ⟨t, heq, hsz, hmap, hinvt⟩
    refine ⟨t, ?_, hsz, ?_, hinvt⟩
    · have hrw : HM.insertListF hasher (fuel + 1) acc (y :: ys) =
          HM.insertListF hasher (fuel + 1)
            ⟨acc.sz, acc.els + 1, pushBucket acc.indexes (hasher y.1 % acc.sz) acc.els,
              acc.hashmap ++ [y]⟩ ys := by
        simp only [HM.insertListF]
        rw [hstep]
      rw [hrw, heq]
    · rw [hmap]
      show (acc.hashmap ++ [y]) ++ ys = acc.hashmap ++ y :: ys
      simp

theorem hm_insert_spec {s : HM.State K V} {k : K} {v : V}
    (hinv : InvHM hasher s) (habs : k ∉ s.hashmap.map Prod.fst) :
    ∃ t, HM.insert hasher s (k, v) = some t ∧
      t.hashmap = s.hashmap ++ [(k, v)] ∧ InvHM hasher t := by
  by_cases hroom : s.els + 1 ≤ s.sz
  · have hstep := @hm_insertF_step K V _ hasher 1 s (k, v) hinv habs hroom
    refine ⟨_, ?_, rfl, hm_append_inv hinv habs hroom⟩
    show HM.insertF hasher (1 + 1) s (k, v) = _
    exact hstep
  · have hfind : HM.find hasher s (k, v).1 = none := hm_find_absent habs
    have hels := hinv.1
    have hszlen := hinv.2.1
    have hle := hinv.2.2.1
    have hkeys := hinv.2.2.2.2
    have hacc : InvHM hasher
        (⟨s.sz * 2 + 1, 0, List.replicate (s.sz * 2 + 1) [], []⟩ : HM.State K V) :=
      hm_empty_acc_inv _
    rcases @hm_insertListF_append K V _ hasher 0 s.hashmap
        ⟨s.sz * 2 + 1, 0, List.replicate (s.sz * 2 + 1) [], []⟩ hacc
        (by simpa [KeysNodup] using hkeys)
        (by simp only [List.length_nil]; omega)
      with ⟨t0, heq0, hsz0, hmap0, hinv0⟩
    have heq0a : HM.insertListF hasher 1
        (⟨s.sz * 2 + 1, 0, List.replicate (s.sz * 2 + 1) [], []⟩ : HM.State K V)
        s.hashmap = some t0 := heq0
    have habs0 : (k, v).1 ∉ t0.hashmap.map Prod.fst := by
      rw [hmap0]
      simpa using habs
    have hroom0 : t0.els + 1 ≤ t0.sz := by
      have h1 := hinv0.1
      rw [hmap0] at h1
      simp only [List.nil_append] at h1
      have h2 : t0.sz = s.sz * 2 + 1 := hsz0
      omega
    have hstep := @hm_insertF_step K V _ hasher 0 t0 (k, v) hinv0 habs0 hroom0
    refine ⟨_, ?_, ?_, hm_append_inv hinv0 habs0 hroom0⟩
    · show HM.insertF hasher (1 + 1) s (k, v) = _
      simp only [HM.insertF]
      rw [hfind, if_pos (by omega), heq0a]
    · show t0.hashmap ++ [(k, v)] = s.hashmap ++ [(k, v)]
      rw [hmap0]
      simp

theorem hm_find_at {t : HM.State K V} {k : K} {v : V} {n : Nat}
    (hinvt : InvHM hasher t)
    (hn : t.hashmap[n]? = some (k, v))
    (huniq : ∀ i kv, t.hashmap[i]? = some kv → kv.1 = k → i = n) :
    HM.find hasher t k = some n ∧ HM.atKey hasher t k = some v := by
  obtain ⟨hels, hsz, hle, htinv, _⟩ := hinvt
  have hszpos : ¬t.sz = 0 := by
    have hlt := getElem?_some_lt hn
    omega
  have hfind : HM.find hasher t k = some n := by
    unfold HM.find
    rw [if_neg hszpos, hsz]
    exact scanBucket_find_unique htinv hn huniq
  refine ⟨hfind, ?_⟩
  unfold HM.atKey
  rw [hfind]
  show Option.map Prod.snd t.hashmap[n]? = some v
  rw [hn]
  rfl

theorem hm_insert_roundtrip {s : HM.State K V} {k : K} {v : V}
    (hinv : InvHM hasher s) (habs : k ∉ s.hashmap.map Prod.fst) :
    ∃ t, HM.insert hasher s (k, v) = some t ∧
      ∃ i, HM.find hasher t k = some i ∧ t.hashmap[i]? = some (k, v) ∧
        HM.atKey hasher t k = some v := by
  rcases hm_insert_spec hinv habs with ⟨t, heq, hmap, hinvt⟩
  have hn : t.hashmap[s.hashmap.length]? = some (k, v) := by
    rw [hmap]
    exact List.getElem?_concat_length s.hashmap (k, v)
  have huniq : ∀ i kv, t.hashmap[i]? = some kv → kv.1 = k → i = s.hashmap.length := by
    intro i kv h1 h2
    rw [hmap] at h1
    exact appended_key_unique habs i kv h1 h2
  rcases hm_find_at hinvt hn huniq with ⟨hf, ha⟩
  exact ⟨t, heq, s.hashmap.length, hf, hn, ha⟩

theorem hm_rebuild_spec {s : HM.State K V}
    (hkeys : KeysNodup s.hashmap) (hroom : s.hashmap.length ≤ s.sz) :
    ∃ t, HM.rebuild hasher s = some t ∧ t.hashmap = s.hashmap := by
  rcases @hm_insertListF_append K V _ hasher 0 s.hashmap
      ⟨s.sz, 0, List.replicate s.sz [], []⟩ (hm_empty_acc_inv _)
      (by simpa [KeysNodup] using hkeys)
      (by simp only [List.length_nil]; omega)
    with ⟨t, heq, _, hmap, _⟩
  refine ⟨t, ?_, ?_⟩
  · show HM.insertListF hasher 1 _ s.hashmap = some t
    exact heq
  · rw [hmap]
    simp

theorem hm_find_present {s : HM.State K V} {k : K}
    (hinv : InvHM hasher s) (hpres : k ∈ s.hashmap.map Prod.fst) :
    ∃ i, HM.find hasher s k = some i := by
  obtain ⟨hels, hsz, hle, htinv, _⟩ := hinv
  rcases List.mem_map.mp hpres with ⟨kv, hkvmem, hk1⟩
  rcases List.mem_iff_getElem?.mp hkvmem with ⟨p, hp⟩
  have hp2 : s.hashmap[p]? = some (k, kv.2) := by
    rw [← hk1]
    simpa using hp
  have hszpos : ¬s.sz = 0 := by
    have := getElem?_some_lt hp2
    omega
  have hgoal := scanBucket_find_present htinv hp2
  unfold HM.find
  rw [if_neg hszpos, hsz]
  exact hgoal

theorem hm_at_spec {s : HM.State K V} (k : K) (hinv : InvHM hasher s) :
    (HM.atKey hasher s k = none ↔ k ∉ s.hashmap.map Prod.fst) ∧
    (∀ v, HM.atKey hasher s k = some v ↔ (k, v) ∈ s.hashmap) := by
  have hkeys := hinv.2.2.2.2
  cases hfind : HM.find hasher s k with
  | none =>
    have habs : k ∉ s.hashmap.map Prod.fst := by
      intro hpres
      rcases hm_find_present hinv hpres with ⟨i, hfb⟩
      rw [hfb] at hfind
      cases hfind
    have hat : HM.atKey hasher s k = none := by
      unfold HM.atKey
      rw [hfind]
    refine ⟨⟨fun _ => habs, fun _ => hat⟩, ?_⟩
    intro v
    constructor
    · intro hv
      rw [hat] at hv
      cases hv
    · intro hv
      exact absurd (List.mem_map_of_mem Prod.fst hv) habs
  | some i =>
    have hs0 : ¬s.sz = 0 := by
      intro h0
      unfold HM.find at hfind
      rw [if_pos h0] at hfind
      cases hfind
    have hscan : scanBucket s.hashmap (s.indexes.getD (hasher k % s.sz) []) k = some i := by
      unfold HM.find at hfind
      rwa [if_neg hs0] at hfind
    rcases scanBucket_some hscan with ⟨_, kv, hkv, hk1⟩
    have hkv2 : s.hashmap[i]? = some (k, kv.2) := by
      rw [← hk1]
      simpa using hkv
    have hat : HM.atKey hasher s k = some kv.2 := by
      unfold HM.atKey
      rw [hfind]
      show Option.map Prod.snd s.hashmap[i]? = some kv.2
      rw [hkv2]
      rfl
    have hpres : k ∈ s.hashmap.map Prod.fst := by
      rw [← hk1]
      exact List.mem_map_of_mem Prod.fst (List.mem_iff_getElem?.mpr ⟨i, hkv⟩)
    constructor
    · constructor
      · intro h0
        rw [hat] at h0
        cases h0
      · intro h0
        exact absurd hpres h0
    · intro v
      constructor
      · intro hv
        rw [hat] at hv
        have hveq : kv.2 = v := Option.some.inj hv
        rw [← hveq]
        exact List.mem_iff_getElem?.mpr ⟨i, hkv2⟩
      · intro hv
        rcases List.mem_iff_getElem?.mp hv with ⟨j, hj⟩
        have hij : j = i := keysNodup_index_unique hkeys hj hkv2
        rw [hij] at hj
        have heq2 : (k, v) = (k, kv.2) := by
          apply Option.some.inj
          rw [← hj, hkv2]
        rw [hat, (show v = kv.2 from congrArg Prod.snd heq2)]

end HMLemmas

section ChainLemmas

variable {K V : Type} [DecidableEq K] {hasher : K → Nat}

theorem ht_insertChain_reachable {s : HT.State K V} (h : HT.Reachable hasher s) :
    ∀ l : List (K × V), HT.Reachable hasher (insertChain hasher s l) := by
  intro l
  induction l generalizing s with
  | nil => exact h
  | cons x xs ih =>
    show HT.Reachable hasher (insertChain hasher (HT.insert hasher s x) xs)
    exact ih (HT.Reachable.insertStep x h)

theorem ht_eraseChain_none (ks : List K) :
    ks.foldl (fun acc k => acc.bind fun t => HT.erase hasher t k)
      (none : Option (HT.State K V)) = none := by
  induction ks with
  | nil => rfl
  | cons k ks ih =>
    rw [List.foldl_cons]
    exact ih

theorem ht_eraseChain_reachable {s t : HT.State K V} (h : HT.Reachable hasher s) :
    ∀ ks : List K, eraseChain hasher s ks = some t → HT.Reachable hasher t := by
  intro ks
  induction ks generalizing s with
  | nil =>
    intro heq
    unfold eraseChain at heq
    rw [(Option.some.inj heq : s = t)] at h
    exact h
  | cons k ks ih =>
    intro heq
    unfold eraseChain at heq
    rw [List.foldl_cons] at heq
    cases her : HT.erase hasher s k with
    | none =>
      exfalso
      rw [show (some s).bind (fun t => HT.erase hasher t k) = none by
        simp [her]] at heq
      rw [ht_eraseChain_none] at heq
      cases heq
    | some u =>
      apply ih (HT.Reachable.eraseStep k h her)
      unfold eraseChain
      rw [show (some s).bind (fun t => HT.erase hasher t k) = some u by
        simp [her]] at heq
      exact heq

end ChainLemmas

section ClaimTheorems

/-- C1: for every well-formed container state and every key k absent from
it and every value v, after insert((k, v)) the lookup find(k) returns a
position whose stored pair equals (k, v), and at(k) returns v.  Proved
for all three variants (hashtable.h, HashMap.cpp, hash_map.h); in the
hash_map.h variant insert is fuel-modelled and is shown to succeed. -/
theorem c1_insert_find_at_roundtrip :
    (∀ (K V : Type) [DecidableEq K] (hasher : K → Nat) (s : HT.State K V) (k : K) (v : V),
      InvHT hasher s → k ∉ s.data.map Prod.fst →
      ∃ i, HT.find hasher (HT.insert hasher s (k, v)) k = some i ∧
        (HT.insert hasher s (k, v)).data[i]? = some (k, v) ∧
        HT.atKey hasher (HT.insert hasher s (k, v)) k = some v) ∧
    (∀ (K V : Type) [DecidableEq K] (hasher : K → Nat) (s : MC.State K V) (k : K) (v : V),
      InvMC hasher s → k ∉ s.els.map Prod.fst →
      ∃ i, MC.find hasher (MC.insert hasher s (k, v)) k = some i ∧
        (MC.insert hasher s (k, v)).els[i]? = some (k, v) ∧
        MC.atKey hasher (MC.insert hasher s (k, v)) k = some v) ∧
    (∀ (K V : Type) [DecidableEq K] (hasher : K → Nat) (s : HM.State K V) (k : K) (v : V),
      InvHM hasher s → k ∉ s.hashmap.map Prod.fst →
      ∃ t, HM.insert hasher s (k, v) = some t ∧
        ∃ i, HM.find hasher t k = some i ∧ t.hashmap[i]? = some (k, v) ∧
          HM.atKey hasher t k = some v) :=
  ⟨fun _ _ _ _ _ _ _ hinv habs => ht_insert_roundtrip hinv habs,
   fun _ _ _ _ _ _ _ hinv habs => mc_insert_roundtrip hinv habs,
   fun _ _ _ _ _ _ _ hinv habs => hm_insert_roundtrip hinv habs⟩

/-- Witness for C1 at hasher = natHash, the freshly constructed map of
each variant, key 0, value 5. -/
theorem c1_insert_find_at_roundtrip_witness :
    (InvHT natHash (HT.mk natHash : HT.State Nat Nat) ∧
      (0 : Nat) ∉ (HT.mk natHash : HT.State Nat Nat).data.map Prod.fst ∧
      ∃ i, HT.find natHash (HT.insert natHash (HT.mk natHash) (0, 5)) 0 = some i ∧
        (HT.insert natHash (HT.mk natHash : HT.State Nat Nat) (0, 5)).data[i]? = some (0, 5) ∧
        HT.atKey natHash (HT.insert natHash (HT.mk natHash) (0, 5)) 0 = some 5) ∧
    (InvMC natHash (MC.mk natHash : MC.State Nat Nat) ∧
      (0 : Nat) ∉ (MC.mk natHash : MC.State Nat Nat).els.map Prod.fst ∧
      ∃ i, MC.find natHash (MC.insert natHash (MC.mk natHash) (0, 5)) 0 = some i ∧
        (MC.insert natHash (MC.mk natHash : MC.State Nat Nat) (0, 5)).els[i]? = some (0, 5) ∧
        MC.atKey natHash (MC.insert natHash (MC.mk natHash) (0, 5)) 0 = some 5) ∧
    (InvHM natHash (HM.mk : HM.State Nat Nat) ∧
      (0 : Nat) ∉ (HM.mk : HM.State Nat Nat).hashmap.map Prod.fst ∧
      ∃ t, HM.insert natHash (HM.mk : HM.State Nat Nat) (0, 5) = some t ∧
        ∃ i, HM.find natHash t 0 = some i ∧ t.hashmap[i]? = some (0, 5) ∧
          HM.atKey natHash t 0 = some 5) :=
  ⟨⟨by decide, by decide,
    c1_insert_find_at_roundtrip.1 Nat Nat natHash (HT.mk natHash) 0 5
      (by decide) (by decide)⟩,
   ⟨by decide, by decide,
    c1_insert_find_at_roundtrip.2.1 Nat Nat natHash (MC.mk natHash) 0 5
      (by decide) (by decide)⟩,
   ⟨by decide, by decide,
    c1_insert_find_at_roundtrip.2.2 Nat Nat natHash HM.mk 0 5
      (by decide) (by decide)⟩⟩

/-- C2: the claimed erase completeness fails in the hashtable.h variant
when the erased key occupies the last position of the element store.  In
the two-element map built by inserting (0,0) and (1,1), key 1 is present
(found at position 1, the last one), yet erase(1) removes position 1 from
its bucket and then dereferences the failed search for position 1 in that
same bucket: an out-of-range write, modelled as none. -/
theorem c2_ht_erase_last_position_failure :
    HT.find natHash
      (HT.insert natHash (HT.insert natHash (HT.mk natHash : HT.State Nat Nat) (0, 0)) (1, 1)) 1
      = some 1 ∧
    HT.erase natHash
      (HT.insert natHash (HT.insert natHash (HT.mk natHash : HT.State Nat Nat) (0, 0)) (1, 1)) 1
      = none := by
  decide

/-- C3: inserting an already-present key is a no-op in the hashtable.h
and HashMap.cpp variants: the state after insert equals the state
before, so the stored value for the key is preserved, not overwritten. -/
theorem c3_insert_existing_noop :
    (∀ (K V : Type) [DecidableEq K] (hasher : K → Nat) (s : HT.State K V) (k : K) (v : V),
      InvHT hasher s → k ∈ s.data.map Prod.fst → HT.insert hasher s (k, v) = s) ∧
    (∀ (K V : Type) [DecidableEq K] (hasher : K → Nat) (s : MC.State K V) (k : K) (v : V),
      InvMC hasher s → k ∈ s.els.map Prod.fst → MC.insert hasher s (k, v) = s) :=
  ⟨fun _ _ _ _ _ _ v hinv hpres => ht_insert_noop v hinv hpres,
   fun _ _ _ _ _ _ v hinv hpres => mc_insert_noop v hinv hpres⟩

/-- Witness for C3: after inserting (0,5), re-inserting key 0 with the
different value 7 leaves the container unchanged in both variants. -/
theorem c3_insert_existing_noop_witness :
    (InvHT natHash (HT.insert natHash (HT.mk natHash : HT.State Nat Nat) (0, 5)) ∧
      (0 : Nat) ∈ (HT.insert natHash (HT.mk natHash : HT.State Nat Nat) (0, 5)).data.map Prod.fst ∧
      HT.insert natHash (HT.insert natHash (HT.mk natHash : HT.State Nat Nat) (0, 5)) (0, 7)
        = HT.insert natHash (HT.mk natHash) (0, 5)) ∧
    (InvMC natHash (MC.insert natHash (MC.mk natHash : MC.State Nat Nat) (0, 5)) ∧
      (0 : Nat) ∈ (MC.insert natHash (MC.mk natHash : MC.State Nat Nat) (0, 5)).els.map Prod.fst ∧
      MC.insert natHash (MC.insert natHash (MC.mk natHash : MC.State Nat Nat) (0, 5)) (0, 7)
        = MC.insert natHash (MC.mk natHash) (0, 5)) :=
  ⟨⟨by decide, by decide,
    c3_insert_existing_noop.1 Nat Nat natHash
      (HT.insert natHash (HT.mk natHash) (0, 5)) 0 7 (by decide) (by decide)⟩,
   ⟨by decide, by decide,
    c3_insert_existing_noop.2 Nat Nat natHash
      (MC.insert natHash (MC.mk natHash) (0, 5)) 0 7 (by decide) (by decide)⟩⟩

/-- C4: erasing the key stored at the last position.  In hash_map.h the
dedicated branch only truncates: on the well-formed one-element
container (sz 1, els 1, bucket [0], store [(0,0)]) the result is
exactly the empty store with the single bucket entry removed - no swap
and no bucket-entry rewrite for a moved element.  In hashtable.h the
same erase dereferences the failed std::find for the just-removed
position: an out-of-range Bucket Index access, modelled as none. -/
theorem c4_erase_last_special_case :
    InvHM natHash (⟨1, 1, [[0]], [(0, 0)]⟩ : HM.State Nat Nat) ∧
    HM.erase natHash (⟨1, 1, [[0]], [(0, 0)]⟩ : HM.State Nat Nat) 0
      = some ⟨1, 0, [[]], []⟩ ∧
    HT.erase natHash (HT.insert natHash (HT.mk natHash : HT.State Nat Nat) (0, 0)) 0
      = none := by
  decide

/-- C5: the index-correctness invariant is not preserved by every
operation of the hashtable.h variant.  clear() on the one-element map
leaves the stale position 0 in bucket 0 (RehashIfNecessary returns early
because the bucket count already equals max(0, kMinLoad)), and after the
next insert of key 1 the live position 0 sits in bucket 0 and in
bucket 1, while its correct bucket, natHash(1) % 3, is bucket 1 alone. -/
theorem c5_clear_stale_index_violation :
    HT.insert natHash
        (HT.clear natHash (HT.insert natHash (HT.mk natHash : HT.State Nat Nat) (0, 5))) (1, 7)
      = ⟨[[0], [0], []], [(1, 7)]⟩ ∧
    (0 : Nat) ∈ ([[0], [0], []] : List (List Nat)).getD 0 [] ∧
    (0 : Nat) ∈ ([[0], [0], []] : List (List Nat)).getD 1 [] ∧
    (([(1, 7)] : List (Nat × Nat)).map fun kv => natHash kv.1 % 3)[0]? = some 1 := by
  decide

/-- C6 (amended): on every reachable state of the hashtable.h variant
the bucket count is at least kMinLoad and either equals
max(elementCount, kMinLoad) exactly (the rehash target), or neither
resize trigger fires, i.e. elementCount <= kMaxLoadFactor * bucketCount
and bucketCount <= kMinLoadFactor * elementCount. -/
theorem c6_density_invariant :
    ∀ (K V : Type) [DecidableEq K] (hasher : K → Nat) (s : HT.State K V),
      HT.Reachable hasher s → HT.DensityInv s :=
  fun _ _ _ _ _ h => ht_reachable_density h

/-- Witness for C6: the freshly constructed hashtable.h map is reachable
and satisfies the density invariant. -/
theorem c6_density_invariant_witness :
    HT.Reachable natHash (HT.mk natHash : HT.State Nat Nat) ∧
    HT.DensityInv (HT.mk natHash : HT.State Nat Nat) :=
  ⟨HT.Reachable.base,
   c6_density_invariant Nat Nat natHash (HT.mk natHash) HT.Reachable.base⟩

/-- C6 (counterexample): the claimed strict chain
minLoadFactor < bucketCount/n < 1/maxLoadFactor is unsatisfiable and
false on the reachable state with three elements and three buckets, and
the claimed pinning bucketCount = kMinLoad below the floor is also
false: after inserting keys 0..14 and erasing thirteen keys the
container reaches 2 elements with 4 buckets. -/
theorem c6_density_counterexample :
    HT.Reachable natHash (⟨[[0], [1], [2]], [(0, 0), (1, 1), (2, 2)]⟩ : HT.State Nat Nat) ∧
    HT.kMinLoad ≤ (⟨[[0], [1], [2]], [(0, 0), (1, 1), (2, 2)]⟩ : HT.State Nat Nat).data.length ∧
    (⟨[[0], [1], [2]], [(0, 0), (1, 1), (2, 2)]⟩ : HT.State Nat Nat).hashTable.length = 3 ∧
    (⟨[[0], [1], [2]], [(0, 0), (1, 1), (2, 2)]⟩ : HT.State Nat Nat).data.length = 3 ∧
    ¬((HT.kMinLoadFactor : ℚ) < (3 : ℚ) / 3 ∧ (3 : ℚ) / 3 < 1 / (HT.kMaxLoadFactor : ℚ)) ∧
    (∃ s2 : HT.State Nat Nat,
      eraseChain natHash
          (insertChain natHash (HT.mk natHash) ((List.range 15).map fun k => (k, 0)))
          [0, 14, 13, 12, 11, 10, 9, 8, 7, 6, 5, 4, 3] = some s2 ∧
      HT.Reachable natHash s2 ∧
      s2.data.length = 2 ∧ s2.data.length < HT.kMinLoad ∧
      s2.hashTable.length = 4 ∧ s2.hashTable.length ≠ HT.kMinLoad) := by
  have h3 : HT.insert natHash
      (HT.insert natHash (HT.insert natHash (HT.mk natHash : HT.State Nat Nat) (0, 0)) (1, 1))
      (2, 2) = ⟨[[0], [1], [2]], [(0, 0), (1, 1), (2, 2)]⟩ := by decide
  have hreach3 : HT.Reachable natHash
      (⟨[[0], [1], [2]], [(0, 0), (1, 1), (2, 2)]⟩ : HT.State Nat Nat) :=
    h3 ▸ HT.Reachable.insertStep _
      (HT.Reachable.insertStep _ (HT.Reachable.insertStep _ HT.Reachable.base))
  have hchain : eraseChain natHash
      (insertChain natHash (HT.mk natHash : HT.State Nat Nat)
        ((List.range 15).map fun k => (k, 0)))
      [0, 14, 13, 12, 11, 10, 9, 8, 7, 6, 5, 4, 3]
      = some ((eraseChain natHash
          (insertChain natHash (HT.mk natHash : HT.State Nat Nat)
            ((List.range 15).map fun k => (k, 0)))
          [0, 14, 13, 12, 11, 10, 9, 8, 7, 6, 5, 4, 3]).getD (HT.mk natHash)) := by
    decide
  refine ⟨hreach3, by decide, rfl, rfl, ?_, ?_⟩
  · intro hcontra
    rw [show HT.kMinLoadFactor = 3 from rfl] at hcontra
    have := hcontra.1
    norm_num at this
  · refine ⟨_, hchain, ?_, by decide, by decide, by decide, by decide⟩
    exact ht_eraseChain_reachable
      (ht_insertChain_reachable HT.Reachable.base _) _ hchain

/-- C7 (counterexample): a freshly default-constructed hash_map.h
container has an empty Bucket Index, zero buckets, not the positive
floor kMinLoad = 3 the claim requires. -/
theorem c7_no_minfloor_buckets_counterexample :
    (HM.mk : HM.State Nat Nat).indexes.length = 0 ∧
    (HM.mk : HM.State Nat Nat).indexes.length ≠ HT.kMinLoad := by
  decide

/-- C7 (amended): the freshly constructed hashtable.h container has
kMinLoad buckets, the HashMap.cpp container 1 bucket, the hash_map.h
container 0 buckets; in all three variants find on the fresh container
returns the not-found sentinel for every key, and no modulus by zero is
computed: the two variants that take a modulus have a positive bucket
count, and hash_map.h returns through its explicit sz == 0 guard. -/
theorem c7_empty_container_find :
    ∀ (K V : Type) [DecidableEq K] (hasher : K → Nat) (key : K),
      (HT.mk hasher : HT.State K V).hashTable.length = HT.kMinLoad ∧
      (MC.mk hasher : MC.State K V).hashTable.length = 1 ∧
      (HM.mk : HM.State K V).indexes.length = 0 ∧
      0 < (HT.mk hasher : HT.State K V).hashTable.length ∧
      0 < (MC.mk hasher : MC.State K V).hashTable.length ∧
      HT.find hasher (HT.mk hasher : HT.State K V) key = none ∧
      MC.find hasher (MC.mk hasher : MC.State K V) key = none ∧
      HM.find hasher (HM.mk : HM.State K V) key = none := by
  intro K V _ hasher key
  refine ⟨rfl, rfl, rfl,
    (show (0 : Nat) < 3 by norm_num), (show (0 : Nat) < 1 by norm_num), ?_, ?_, rfl⟩
  · show scanBucket ([] : List (K × V))
      ((List.replicate 3 ([] : List Nat)).getD (hasher key % 3) []) key = none
    rw [getD_replicate]
    rfl
  · show scanBucket ([] : List (K × V))
      (([[]] : List (List Nat)).getD (hasher key % 1) []) key = none
    rw [Nat.mod_one]
    rfl

/-- C8: a rehash never mutates the element store.  For hashtable.h and
HashMap.cpp this is unconditional: the rebuild writes a fresh bucket
table and copies nothing in the store.  For hash_map.h, rebuild
re-inserts every stored pair; under the preconditions at its call site
(unique keys and a table at least as large as the store, so that no
inner insert is skipped or triggers a nested rebuild) it succeeds and
reproduces the store sequence exactly. -/
theorem c8_rehash_preserves_store :
    (∀ (K V : Type) [DecidableEq K] (hasher : K → Nat) (s : HT.State K V),
      (HT.rehashIfNecessary hasher s).data = s.data) ∧
    (∀ (K V : Type) [DecidableEq K] (hasher : K → Nat) (s : MC.State K V),
      (MC.rehash hasher s).els = s.els) ∧
    (∀ (K V : Type) [DecidableEq K] (hasher : K → Nat) (s : HM.State K V),
      KeysNodup s.hashmap → s.hashmap.length ≤ s.sz →
      ∃ t, HM.rebuild hasher s = some t ∧ t.hashmap = s.hashmap) :=
  ⟨fun _ _ _ _ s => ht_rehash_data s,
   fun _ _ _ _ s => mc_rehash_els s,
   fun _ _ _ _ _ hkeys hroom => hm_rebuild_spec hkeys hroom⟩

/-- Witness for C8 (hash_map.h part): rebuild of a one-element store
with one bucket succeeds and keeps the store. -/
theorem c8_rehash_preserves_store_witness :
    KeysNodup ((⟨1, 1, [[0]], [(0, 5)]⟩ : HM.State Nat Nat)).hashmap ∧
    (⟨1, 1, [[0]], [(0, 5)]⟩ : HM.State Nat Nat).hashmap.length
      ≤ (⟨1, 1, [[0]], [(0, 5)]⟩ : HM.State Nat Nat).sz ∧
    ∃ t, HM.rebuild natHash (⟨1, 1, [[0]], [(0, 5)]⟩ : HM.State Nat Nat) = some t ∧
      t.hashmap = (⟨1, 1, [[0]], [(0, 5)]⟩ : HM.State Nat Nat).hashmap :=
  ⟨by decide, by decide,
   c8_rehash_preserves_store.2.2 Nat Nat natHash
     ⟨1, 1, [[0]], [(0, 5)]⟩ (by decide) (by decide)⟩

/-- C9: in every variant, at(k) signals key-not-found (modelled none)
exactly when k is absent, and returns exactly the stored value when k is
present; at is a const member and is modelled as a pure function of the
state, so it cannot mutate the container. -/
theorem c9_at_error_iff_absent :
    (∀ (K V : Type) [DecidableEq K] (hasher : K → Nat) (s : HT.State K V) (k : K),
      InvHT hasher s →
      (HT.atKey hasher s k = none ↔ k ∉ s.data.map Prod.fst) ∧
      (∀ v, HT.atKey hasher s k = some v ↔ (k, v) ∈ s.data)) ∧
    (∀ (K V : Type) [DecidableEq K] (hasher : K → Nat) (s : MC.State K V) (k : K),
      InvMC hasher s →
      (MC.atKey hasher s k = none ↔ k ∉ s.els.map Prod.fst) ∧
      (∀ v, MC.atKey hasher s k = some v ↔ (k, v) ∈ s.els)) ∧
    (∀ (K V : Type) [DecidableEq K] (hasher : K → Nat) (s : HM.State K V) (k : K),
      InvHM hasher s →
      (HM.atKey hasher s k = none ↔ k ∉ s.hashmap.map Prod.fst) ∧
      (∀ v, HM.atKey hasher s k = some v ↔ (k, v) ∈ s.hashmap)) :=
  ⟨fun _ _ _ _ _ k hinv => ht_at_spec k hinv,
   fun _ _ _ _ _ k hinv => mc_at_spec k hinv,
   fun _ _ _ _ _ k hinv => hm_at_spec k hinv⟩

/-- Witness for C9 at the one-element hashtable.h, HashMap.cpp and
hash_map.h states holding (0, 5). -/
theorem c9_at_error_iff_absent_witness :
    (InvHT natHash (HT.insert natHash (HT.mk natHash : HT.State Nat Nat) (0, 5)) ∧
      ((HT.atKey natHash (HT.insert natHash (HT.mk natHash : HT.State Nat Nat) (0, 5)) 0 = none
          ↔ (0 : Nat) ∉ (HT.insert natHash (HT.mk natHash : HT.State Nat Nat) (0, 5)).data.map Prod.fst) ∧
        (∀ v, HT.atKey natHash (HT.insert natHash (HT.mk natHash : HT.State Nat Nat) (0, 5)) 0 = some v
          ↔ ((0 : Nat), v) ∈ (HT.insert natHash (HT.mk natHash : HT.State Nat Nat) (0, 5)).data))) ∧
    (InvMC natHash (MC.insert natHash (MC.mk natHash : MC.State Nat Nat) (0, 5)) ∧
      ((MC.atKey natHash (MC.insert natHash (MC.mk natHash : MC.State Nat Nat) (0, 5)) 0 = none
          ↔ (0 : Nat) ∉ (MC.insert natHash (MC.mk natHash : MC.State Nat Nat) (0, 5)).els.map Prod.fst) ∧
        (∀ v, MC.atKey natHash (MC.insert natHash (MC.mk natHash : MC.State Nat Nat) (0, 5)) 0 = some v
          ↔ ((0 : Nat), v) ∈ (MC.insert natHash (MC.mk natHash : MC.State Nat Nat) (0, 5)).els))) ∧
    (InvHM natHash (⟨1, 1, [[0]], [(0, 5)]⟩ : HM.State Nat Nat) ∧
      ((HM.atKey natHash (⟨1, 1, [[0]], [(0, 5)]⟩ : HM.State Nat Nat) 0 = none
          ↔ (0 : Nat) ∉ (⟨1, 1, [[0]], [(0, 5)]⟩ : HM.State Nat Nat).hashmap.map Prod.fst) ∧
        (∀ v, HM.atKey natHash (⟨1, 1, [[0]], [(0, 5)]⟩ : HM.State Nat Nat) 0 = some v
          ↔ ((0 : Nat), v) ∈ (⟨1, 1, [[0]], [(0, 5)]⟩ : HM.State Nat Nat).hashmap))) :=
  ⟨⟨by decide,
    c9_at_error_iff_absent.1 Nat Nat natHash
      (HT.insert natHash (HT.mk natHash) (0, 5)) 0 (by decide)⟩,
   ⟨by decide,
    c9_at_error_iff_absent.2.1 Nat Nat natHash
      (MC.insert natHash (MC.mk natHash) (0, 5)) 0 (by decide)⟩,
   ⟨by decide,
    c9_at_error_iff_absent.2.2 Nat Nat natHash
      ⟨1, 1, [[0]], [(0, 5)]⟩ 0 (by decide)⟩⟩

end ClaimTheorems

end HashMapSpec
